import Mathlib

/-!
Shallow embedding of the gohtml HTML parser (package gohtml): the lexer
(lex.go), the entity decoder and tree builder (parse source), and the node
tree with its query operations (node.go), together with theorems checking
the natural-language specification against this embedding.

Go byte slices are modelled as `List Char` (all structural bytes are ASCII),
Go `int` as `Int`, Go `nil` pointers as `Option`/empty lists.  Loops are
modelled by structural recursion on an explicit fuel argument chosen so that
it never runs out on the loops' actual behaviour (each loop iteration
consumes at least one input position, and the fuel is the input length).
-/

namespace GoHtml

/-- Byte strings of the Go code, modelled as lists of characters. -/
abbrev Str := List Char

/-- Cursor location in a file (node.go `Location`): 1-indexed line and
column, 0-indexed byte offset, all Go `int`s. -/
structure Location where
  line : Int
  col : Int
  pos : Int
deriving DecidableEq, Repr

/-- The Go zero value of `Location`. -/
def zeroLoc : Location := ⟨0, 0, 0⟩

/-- Go `data[i:]`. -/
def dropGo (data : Str) (i : Int) : Str := data.drop i.toNat

/-- Go `data[a:b]` (total model of the slice; in-source slices are in range). -/
def sliceGo (data : Str) (a b : Int) : Str := (data.drop a.toNat).take (b - a).toNat

/-- Go `data[i]` (total model of indexing; in-source accesses are in range). -/
def atIdx (data : Str) (i : Int) : Char := data.getD i.toNat (Char.ofNat 0)

/-- Go `bytes.HasPrefix s p`. -/
def hasPfx : Str → Str → Bool
  | _, [] => true
  | [], _ :: _ => false
  | a :: as, b :: bs => a = b && hasPfx as bs

/-- The space predicate of unicode.IsSpace restricted to the Latin-1 range,
as used by Go `bytes.TrimSpace` on these inputs. -/
def goUnicodeSpace (c : Char) : Bool :=
  c = ' ' || c = '\t' || c = '\n' || c = '\x0b' || c = '\x0c' || c = '\r' ||
  c = '\u0085' || c = ' '

/-- Go `bytes.TrimSpace`. -/
def trimSpaceGo (s : Str) : Str :=
  ((s.dropWhile goUnicodeSpace).reverse.dropWhile goUnicodeSpace).reverse

/-- The repository's own `isSpace` (and its rune twin `isSpaceR`):
tab, newline, form feed, carriage return, space. -/
def isSpace (c : Char) : Bool :=
  c = '\t' || c = '\n' || c = '\x0c' || c = '\r' || c = ' '

/-- Go `bytes.ToLower` (ASCII letters; inputs here are ASCII). -/
def toLowerGo (s : Str) : Str := s.map Char.toLower

/-- Token kinds of the lexer (lex.go `tokenKind`); the Go zero value is
`invalid`. -/
inductive TokenKind where
  | invalid
  | text
  | verbatim
  | tagOpen
  | tagClose
  | tagSelfclose
  | comment
  | declaration
  | eof
deriving DecidableEq, Repr

/-- A lexer token (lex.go `token`): kind, starting location, raw data. -/
structure Token where
  kind : TokenKind
  loc : Location
  data : Str
deriving DecidableEq, Repr

/-- Node kinds (node.go `NodeKind`); the Go zero value is `invalid`. -/
inductive NodeKind where
  | invalid
  | document
  | element
  | text
  | comment
  | declaration
deriving DecidableEq, Repr

/-- A node of the HTML tree (node.go `Node`).  `attrs` models the Go
`map[string]string` as an association list in insertion order (parseOpenTag
inserts a key only if absent, so keys are unique); `children` models the
Go `[]*Node`, with the nil slice as `[]`. -/
inductive Node where
  | mk (kind : NodeKind) (content : Str) (attrs : List (Str × Str))
      (children : List Node) (loc : Location)

def Node.kind : Node → NodeKind
  | .mk k _ _ _ _ => k

def Node.content : Node → Str
  | .mk _ c _ _ _ => c

def Node.attrs : Node → List (Str × Str)
  | .mk _ _ a _ _ => a

def Node.children : Node → List Node
  | .mk _ _ _ ch _ => ch

def Node.loc : Node → Location
  | .mk _ _ _ _ l => l

/-- node.go `EmptyNode()`: the Invalid sentinel node. -/
def EmptyNode : Node := .mk .invalid [] [] [] ⟨0, 0, -1⟩

/-- Context of an "error lexing X" / "error parsing X" message, standing in
for the wrapped format strings of the Go errors. -/
inductive ErrCtx where
  | comment
  | declaration
  | closingTag
  | openingTag
  | text
  | document
deriving DecidableEq, Repr

/-- The failure cases of `parseEntity`, standing in for the messages wrapped
around `EntityErr`. -/
inductive EntityErrKind where
  | noData
  | emptyEntity
  | noSemicolon
  | noMatch
  | badNumber
  | insufficientHex
deriving DecidableEq, Repr

/-- The errors and warnings of the package (errors.go), each with the
information the Go code wraps into its message. -/
inductive GoError where
  | emptyInput
  | eofErr (ctx : ErrCtx) (loc : Location)
  | entity (loc : Location) (kind : EntityErrKind)
  | emptyContent (ctx : ErrCtx) (loc : Location)
  | tagMismatch (loc : Location) (expected got : Str)
  | unclosedTag (loc : Location) (name : Str)
  | emptyTagStack (loc : Location)
  | tokenErr (loc : Location) (kind : TokenKind)
  | attrKey (loc : Location) (key : Str)
deriving DecidableEq, Repr

/-- One byte step of `stepUntil`: advance line/column/offset over `c`
(newline bumps the line and resets the column; carriage return moves only
the offset). -/
def stepChar (loc : Location) (c : Char) : Location :=
  if c = '\n' then ⟨loc.line + 1, 1, loc.pos + 1⟩
  else if c = '\r' then ⟨loc.line, loc.col, loc.pos + 1⟩
  else ⟨loc.line, loc.col + 1, loc.pos + 1⟩

/-- Fuel-indexed body of lex.go `stepUntil`; one fuel unit per scanned byte. -/
def stepUntilAux (data : Str) (pred : Str → Bool) : Nat → Location → Location
  | 0, loc => loc
  | fuel + 1, loc =>
    if loc.pos < (data.length : Int) && !(pred (dropGo data loc.pos)) then
      stepUntilAux data pred fuel (stepChar loc (atIdx data loc.pos))
    else loc

/-- lex.go `stepUntil`: scan forward while `pred` is false of the remaining
suffix.  The fuel `(data.length - loc.pos).toNat` is exact: each iteration
moves `pos` up by one, and with zero fuel `pos ≥ data.length` so the Go loop
condition is false as well. -/
def stepUntil (loc : Location) (data : Str) (pred : Str → Bool) : Location :=
  stepUntilAux data pred ((data.length : Int) - loc.pos).toNat loc

/-- lex.go `stepUntilPrefix`. -/
def stepUntilPfx (loc : Location) (data : Str) (p : Str) : Location :=
  stepUntil loc data (fun innerData => hasPfx innerData p)

/-- lex.go `commentStart`. -/
def commentStartS : Str := "<!--".toList
/-- lex.go `commentEnd`. -/
def commentEndS : Str := "-->".toList
/-- lex.go `declarationStart`. -/
def declarationStartS : Str := "<!".toList
/-- lex.go `closeTagStart`. -/
def closeTagStartS : Str := "</".toList
/-- lex.go `tagStart`. -/
def tagStartS : Str := "<".toList
/-- lex.go `tagEnd`. -/
def tagEndS : Str := ">".toList

/-- lex.go `lexComment`: skip the `<!--`, scan to `-->`; unterminated is a
fatal EOF error.  The returned token keeps the original location and, in the
error case, stays the Go zero token (kind `invalid`, nil data). -/
def lexComment (data : Str) (loc : Location) : Token × Location × Option GoError :=
  let locD : Location := ⟨loc.line, loc.col, loc.pos + commentStartS.length⟩
  let newLoc := stepUntilPfx locD data commentEndS
  if newLoc.pos ≥ (data.length : Int) then
    (⟨.invalid, loc, []⟩, newLoc, some (.eofErr .comment locD))
  else
    (⟨.comment, loc, sliceGo data locD.pos newLoc.pos⟩,
     { newLoc with pos := newLoc.pos + commentEndS.length }, none)

/-- lex.go `lexDeclaration`: skip the `<!`, scan to `>`. -/
def lexDeclaration (data : Str) (loc : Location) : Token × Location × Option GoError :=
  let locD : Location := ⟨loc.line, loc.col, loc.pos + declarationStartS.length⟩
  let newLoc := stepUntilPfx locD data tagEndS
  if newLoc.pos ≥ (data.length : Int) then
    (⟨.invalid, loc, []⟩, newLoc, some (.eofErr .declaration locD))
  else
    (⟨.declaration, loc, sliceGo data locD.pos newLoc.pos⟩,
     { newLoc with pos := newLoc.pos + 1 }, none)

/-- lex.go `lexTagClose`: skip the `</`, scan to `>`. -/
def lexTagClose (data : Str) (loc : Location) : Token × Location × Option GoError :=
  let locD : Location := ⟨loc.line, loc.col, loc.pos + closeTagStartS.length⟩
  let newLoc := stepUntilPfx locD data tagEndS
  if newLoc.pos ≥ (data.length : Int) then
    (⟨.invalid, loc, []⟩, newLoc, some (.eofErr .closingTag locD))
  else
    (⟨.tagClose, loc, sliceGo data locD.pos newLoc.pos⟩,
     { newLoc with pos := newLoc.pos + 1 }, none)

/-- lex.go `lexTagOpen`: skip the `<`, scan to `>`; a `/` right before the
`>` makes it a self-close token, with the `/` excluded from the data. -/
def lexTagOpen (data : Str) (loc : Location) : Token × Location × Option GoError :=
  let locD : Location := ⟨loc.line, loc.col, loc.pos + 1⟩
  let newLoc := stepUntilPfx locD data tagEndS
  if newLoc.pos ≥ (data.length : Int) then
    (⟨.invalid, loc, []⟩, newLoc, some (.eofErr .openingTag locD))
  else if atIdx data (newLoc.pos - 1) = '/' then
    (⟨.tagSelfclose, loc, sliceGo data locD.pos (newLoc.pos - 1)⟩,
     { newLoc with pos := newLoc.pos + 1 }, none)
  else
    (⟨.tagOpen, loc, sliceGo data locD.pos newLoc.pos⟩,
     { newLoc with pos := newLoc.pos + 1 }, none)

/-- lex.go `lexText`: scan to the next `<`.  An unterminated tail whose
bytes are all whitespace is a non-fatal warning (fourth component); any
other unterminated tail is a fatal EOF error (third component). -/
def lexText (data : Str) (loc : Location) :
    Token × Location × Option GoError × Option GoError :=
  let newLoc := stepUntilPfx loc data tagStartS
  if newLoc.pos ≥ (data.length : Int) then
    if (trimSpaceGo (sliceGo data loc.pos newLoc.pos)).length = 0 then
      (⟨.invalid, loc, []⟩, newLoc, none, some (.eofErr .text loc))
    else
      (⟨.invalid, loc, []⟩, newLoc, some (.eofErr .text loc), none)
  else
    (⟨.text, loc, sliceGo data loc.pos newLoc.pos⟩, newLoc, none, none)

/-- lex.go `lexVerbatim`: scan literally to the matching `</tagName>`; the
same whitespace-tail special case as `lexText` (both use the "error lexing
text" message). -/
def lexVerbatim (data : Str) (loc : Location) (tagName : Str) :
    Token × Location × Option GoError × Option GoError :=
  let closeTag := closeTagStartS ++ tagName ++ tagEndS
  let newLoc := stepUntilPfx loc data closeTag
  if newLoc.pos ≥ (data.length : Int) then
    if (trimSpaceGo (sliceGo data loc.pos newLoc.pos)).length = 0 then
      (⟨.invalid, loc, []⟩, newLoc, none, some (.eofErr .text loc))
    else
      (⟨.invalid, loc, []⟩, newLoc, some (.eofErr .text loc), none)
  else
    (⟨.verbatim, loc, sliceGo data loc.pos newLoc.pos⟩, newLoc, none, none)

/-- lex.go `extractTagName`: name of an open-tag token, lower-cased, cut at
the first space. -/
def extractTagName (tok : Token) : Str :=
  if tok.kind ≠ .tagOpen then []
  else toLowerGo (tok.data.takeWhile (fun c => ¬ isSpace c))

/-- lex.go `verbatimTags`: names whose bodies are scanned verbatim. -/
def verbatimTags : List Str := ["script".toList, "style".toList, "pre".toList]

/-- lex.go `inVerbatim`: is the most recently emitted token an open tag of a
verbatim element? -/
def inVerbatim (tokens : List Token) : Bool :=
  match tokens.getLast? with
  | none => false
  | some tok => tok.kind = .tagOpen && verbatimTags.contains (extractTagName tok)

/-- The tag name passed to `lexVerbatim` by the lex loop:
`extractTagName(tokens[len(tokens)-1])`. -/
def lastTagName (tokens : List Token) : Str :=
  match tokens.getLast? with
  | none => []
  | some tok => extractTagName tok

/-- Fuel-indexed body of the lex.go `lex` loop.  Each iteration advances
`loc.pos` by at least one, so fuel `data.length` never runs out; with zero
fuel `loc.pos ≥ data.length`, which is also the loop's exit condition, so the
zero-fuel result equals the loop exit (append the final `eof` token).  The
trailing-whitespace warning of `lexVerbatim` is discarded, exactly as in the
source, where only the `lexText` branch appends `warn` to `warns`. -/
def lexLoop (data : Str) : Nat → Location → List Token → List GoError →
    List Token × Option GoError × List GoError
  | 0, loc, tokens, warns => (tokens ++ [⟨.eof, loc, []⟩], none, warns)
  | fuel + 1, loc, tokens, warns =>
    if loc.pos < (data.length : Int) then
      if atIdx data loc.pos = '<' then
        if hasPfx (dropGo data loc.pos) commentStartS then
          match lexComment data loc with
          | (_, _, some e) => (tokens, some e, warns)
          | (tok, loc2, none) =>
            lexLoop data fuel loc2
              (if tok.kind ≠ .invalid then tokens ++ [tok] else tokens) warns
        else if hasPfx (dropGo data loc.pos) declarationStartS then
          match lexDeclaration data loc with
          | (_, _, some e) => (tokens, some e, warns)
          | (tok, loc2, none) =>
            lexLoop data fuel loc2
              (if tok.kind ≠ .invalid then tokens ++ [tok] else tokens) warns
        else if hasPfx (dropGo data loc.pos) closeTagStartS then
          match lexTagClose data loc with
          | (_, _, some e) => (tokens, some e, warns)
          | (tok, loc2, none) =>
            lexLoop data fuel loc2
              (if tok.kind ≠ .invalid then tokens ++ [tok] else tokens) warns
        else
          match lexTagOpen data loc with
          | (_, _, some e) => (tokens, some e, warns)
          | (tok, loc2, none) =>
            lexLoop data fuel loc2
              (if tok.kind ≠ .invalid then tokens ++ [tok] else tokens) warns
      else
        if inVerbatim tokens then
          match lexVerbatim data loc (lastTagName tokens) with
          | (_, _, some e, _) => (tokens, some e, warns)
          | (tok, loc2, none, _) =>
            lexLoop data fuel loc2
              (if tok.kind ≠ .invalid then tokens ++ [tok] else tokens) warns
        else
          match lexText data loc with
          | (_, _, some e, w) => (tokens, some e, warns ++ w.toList)
          | (tok, loc2, none, w) =>
            lexLoop data fuel loc2
              (if tok.kind ≠ .invalid then tokens ++ [tok] else tokens)
              (warns ++ w.toList)
    else (tokens ++ [⟨.eof, loc, []⟩], none, warns)

/-- lex.go `lex`: empty input is the fatal `EmptyInputErr`; otherwise run the
token loop from line 1, column 1, offset 0. -/
def lex (data : Str) : List Token × Option GoError × List GoError :=
  if data.length = 0 then ([], some .emptyInput, [])
  else lexLoop data data.length ⟨1, 1, 0⟩ [] []

/-- Modelled from the spec: the static named-entity table (`entityMap`), an
external data asset whose source file is not under src/.  Per the spec it
maps full bracketed keys (`&name;`) to their decoded strings, and per the
spec's description of the semicolon-less probe (and the source's NOTE
pointing at the WHATWG legacy named references, whose example constant is
`&aacute`), it also holds the legacy semicolon-less names.  Only the entries
exercised by the claims are listed; lookups use exact string keys. -/
def entityMap : List (Str × Str) :=
  [("&amp;".toList, "&".toList),
   ("&amp".toList, "&".toList),
   ("&lt;".toList, "<".toList),
   ("&lt".toList, "<".toList),
   ("&gt;".toList, ">".toList),
   ("&gt".toList, ">".toList),
   ("&aacute;".toList, "á".toList),
   ("&aacute".toList, "á".toList)]

/-- Exact-key lookup in the entity table (Go `entityMap[k]` with its `ok`
flag). -/
def entityLookup (k : Str) : Option Str :=
  (entityMap.find? (fun e => e.1 = k)).map (fun e => e.2)

/-- Numeric value of a decimal digit, if any. -/
def decDigit (c : Char) : Option Nat :=
  if '0' ≤ c ∧ c ≤ '9' then some (c.toNat - '0'.toNat) else none

/-- Numeric value of a hexadecimal digit, if any. -/
def hexDigit (c : Char) : Option Nat :=
  if '0' ≤ c ∧ c ≤ '9' then some (c.toNat - '0'.toNat)
  else if 'a' ≤ c ∧ c ≤ 'f' then some (c.toNat - 'a'.toNat + 10)
  else if 'A' ≤ c ∧ c ≤ 'F' then some (c.toNat - 'A'.toNat + 10)
  else none

/-- Digit-string accumulator for `atoiGo`/`parseIntHexGo`: all characters
must be digits of the given base. -/
def digitsVal (digit : Char → Option Nat) (base : Nat) : Str → Option Nat
  | [] => some 0
  | c :: cs =>
    match digit c, digitsVal digit base cs with
    | some d, some v => some (d * base ^ cs.length + v)
    | _, _ => none

/-- Whether an `Int` fits Go's 64-bit `int`; out-of-range parses fail with
`ErrRange`, which the source only observes as a non-nil error. -/
def int64Range (v : Int) : Bool :=
  -(2 ^ 63) ≤ v ∧ v < 2 ^ 63

/-- Go `strconv.Atoi`: optional sign, one or more decimal digits, 64-bit
range; any failure is a non-nil error, modelled as `none`. -/
def atoiGo (s : Str) : Option Int :=
  let signed : Bool × Str :=
    match s with
    | '+' :: rest => (false, rest)
    | '-' :: rest => (true, rest)
    | _ => (false, s)
  match signed with
  | (neg, digits) =>
    if digits.length = 0 then none
    else match digitsVal decDigit 10 digits with
      | none => none
      | some v =>
        let iv : Int := if neg then -(v : Int) else (v : Int)
        if int64Range iv then some iv else none

/-- Go `strconv.ParseInt(s, 16, 0)`: optional sign, one or more hexadecimal
digits (no `0x` prefix with an explicit base), 64-bit range. -/
def parseIntHexGo (s : Str) : Option Int :=
  let signed : Bool × Str :=
    match s with
    | '+' :: rest => (false, rest)
    | '-' :: rest => (true, rest)
    | _ => (false, s)
  match signed with
  | (neg, digits) =>
    if digits.length = 0 then none
    else match digitsVal hexDigit 16 digits with
      | none => none
      | some v =>
        let iv : Int := if neg then -(v : Int) else (v : Int)
        if int64Range iv then some iv else none

/-- Go `string(rune(codepoint))`: the integer is truncated to a 32-bit rune
(two's complement), and an invalid code point (negative, surrogate, or
above U+10FFFF) encodes as the replacement character U+FFFD. -/
def runeStringGo (codepoint : Int) : Str :=
  let r : Int := (codepoint + 2 ^ 31) % 2 ^ 32 - 2 ^ 31
  if 0 ≤ r ∧ r ≤ 0x10FFFF ∧ ¬ (0xD800 ≤ r ∧ r ≤ 0xDFFF) then
    [Char.ofNat r.toNat]
  else ['�']

/-- parse source `longestEntity` (33, `&CounterClockwiseContourIntegral;`). -/
def longestEntity : Nat := 33
/-- parse source `shortestEntity` (4, `&gt;`; unused, kept from the source). -/
def shortestEntity : Nat := 4
/-- parse source `longestNoscEntity` (the source sets it to 7 with the
comment `&aacute`). -/
def longestNoscEntity : Nat := 7
/-- parse source `shortestNoscEntity` (the source sets it to 33 with the
comment `&gt`). -/
def shortestNoscEntity : Nat := 33

/-- The candidate lengths tried by the semicolon-less probe loop
`for entityLen = shortestNoscEntity; entityLen <= longestNoscEntity;
entityLen++` — ascending from `shortestNoscEntity` while at most
`longestNoscEntity`.  With the source's constants this list is empty. -/
def noscCandidates : List Nat :=
  List.range' shortestNoscEntity (longestNoscEntity + 1 - shortestNoscEntity)

/-- The semicolon-less branch of `parseEntity`: probe the candidate lengths
against the table; a hit returns directly (no empty-expansion fallback) with
a missing-semicolon warning; otherwise the unmatched-entity error consumes
exactly one byte and echoes it. -/
def parseEntityNosc (data : Str) : Str × Nat × Option EntityErrKind :=
  match noscCandidates.findSome?
      (fun n => (entityLookup (data.take n)).map (fun e => (e, n))) with
  | some (e, n) => (e, n, some .noSemicolon)
  | none => (data.take 1, 1, some .noMatch)

/-- parse source `parseEntity`: decode one entity reference at the start of
`data`, returning the expansion, the number of bytes consumed, and the error
(always a warning at the call sites).  The final `if exp == ""` fallback of
the source — echo `data[:entityLen]` — is applied on every path except the
probe's early return. -/
def parseEntity (data : Str) : Str × Nat × Option EntityErrKind :=
  if data.length < 2 then (data, data.length, some .noData)
  else
    let fin : Str → Nat → Option EntityErrKind → Str × Nat × Option EntityErrKind :=
      fun exp entityLen err =>
        (if exp = [] then data.take entityLen else exp, entityLen, err)
    match data.findIdx? (fun c => c = ';') with
    | none => parseEntityNosc data
    | some i =>
      let entityLen := i + 1
      if entityLen = 2 then fin [] entityLen (some .emptyEntity)
      else if entityLen > longestEntity then parseEntityNosc data
      else if atIdx data 1 ≠ '#' then
        match entityLookup (data.take entityLen) with
        | some e => fin e entityLen none
        | none => fin [] entityLen (some .noMatch)
      else if atIdx data 2 ≠ 'x' then
        match atoiGo (sliceGo data 2 ((entityLen : Int) - 1)) with
        | some codepoint => fin (runeStringGo codepoint) entityLen none
        | none => fin [] entityLen (some .badNumber)
      else if data.length ≤ 3 then fin [] entityLen (some .insufficientHex)
      else if atIdx data 3 = 'x' then
        match parseIntHexGo (sliceGo data 3 ((entityLen : Int) - 1)) with
        | some codepoint => fin (runeStringGo codepoint) entityLen none
        | none => fin [] entityLen (some .badNumber)
      else fin [] entityLen none

/-- parse source `amp`. -/
def ampS : Str := "&".toList

/-- Fuel-indexed body of the `expandEntitys` loop.  The outer location's
`Pos` is reset to 0 each iteration while its line/column never change, as in
the source (the stepped location is a shadowing variable).  Each iteration
consumes at least one byte of `data`, so fuel `data.length` never runs out;
with zero fuel `data` is empty and the loop breaks at once. -/
def expandLoop (locBase : Location) : Nat → Str → Str → List GoError →
    Str × List GoError
  | fuel, data, buf, warns =>
    let loc1 := stepUntilPfx ⟨locBase.line, locBase.col, 0⟩ data ampS
    let buf := buf ++ data.take loc1.pos.toNat
    if loc1.pos ≥ (data.length : Int) then (buf, warns)
    else
      match fuel with
      | 0 => (buf, warns)
      | fuel + 1 =>
        let data := dropGo data loc1.pos
        match parseEntity data with
        | (exp, entityLen, warnK) =>
          let warns := warns ++ (warnK.map (fun k => GoError.entity loc1 k)).toList
          expandLoop locBase fuel (data.drop entityLen) (buf ++ exp) warns

/-- parse source `expandEntitys`: expand every entity reference in `data`,
collecting entity warnings with locations. -/
def expandEntitys (data : Str) (loc : Location) : Str × List GoError :=
  expandLoop loc data.length data [] []

/-- parse source `parseComment`: the node takes the raw token data as
content, with no trimming and no error. -/
def parseComment (tok : Token) : Node × Option GoError :=
  (.mk .comment tok.data [] [] tok.loc, none)

/-- parse source `parseDeclaration`: content is the trimmed token data;
empty after trimming is a fatal empty-content error (the node keeps the Go
zero content). -/
def parseDeclaration (tok : Token) : Node × Option GoError :=
  let data := trimSpaceGo tok.data
  if data.length = 0 then
    (.mk .declaration [] [] [] tok.loc, some (.emptyContent .declaration tok.loc))
  else (.mk .declaration data [] [] tok.loc, none)

/-- parse source `parseText`: empty raw data is a fatal empty-content error;
otherwise the content is the entity-expanded raw data (not trimmed). -/
def parseText (tok : Token) : Node × Option GoError × List GoError :=
  if tok.data.length = 0 then
    (.mk .text [] [] [] tok.loc, some (.emptyContent .text tok.loc), [])
  else
    match expandEntitys tok.data tok.loc with
    | (content, warns) => (.mk .text content [] [] tok.loc, none, warns)

/-- parse source `parseCloseTag`: the candidate name is the trimmed token
data; empty after trimming is a fatal empty-content error.  The node kind is
`invalid`. -/
def parseCloseTag (tok : Token) : Node × Option GoError :=
  let data := trimSpaceGo tok.data
  if data.length = 0 then
    (.mk .invalid [] [] [] tok.loc, some (.emptyContent .closingTag tok.loc))
  else (.mk .invalid data [] [] tok.loc, none)

/-- parse source `equals`. -/
def equalsS : Str := "=".toList

/-- `notSpaces` stop predicate of `splitTagFields`. -/
def notSpacesP (d : Str) : Bool := d.length ≤ 0 || ¬ isSpace (atIdx d 0)

/-- `isSpacesOrEquals` stop predicate of `splitTagFields`. -/
def isSpacesOrEqualsP (d : Str) : Bool :=
  d.length ≤ 0 || isSpace (atIdx d 0) || hasPfx d equalsS

/-- Fuel-indexed body of the `splitTagFields` loop.  Each iteration either
returns or advances `loc.pos` by at least one (it always consumes a
non-empty field, a quoted span, or an `=`), so fuel `data.length` never runs
out; with zero fuel `loc.pos ≥ data.length`, the loop's exit condition.
The Go `field.Data = append(field.Data, ...)` writes land between the field
start and the scan position, which later reads never revisit, so modelling
them as pure concatenation of slices of the original data is faithful. -/
def splitLoop (data : Str) : Nat → Location → List Token → List Token
  | 0, _, fields => fields
  | fuel + 1, loc, fields =>
    if loc.pos < (data.length : Int) then
      let loc := stepUntil loc data notSpacesP
      if loc.pos ≥ (data.length : Int) then fields
      else
        let fieldLoc := loc
        let loc := stepUntil loc data isSpacesOrEqualsP
        let fdata := sliceGo data fieldLoc.pos loc.pos
        if loc.pos ≥ (data.length : Int) then fields ++ [⟨.text, fieldLoc, fdata⟩]
        else
          let loc2 := stepUntil loc data notSpacesP
          if loc2.pos ≥ (data.length : Int) then fields ++ [⟨.text, fieldLoc, fdata⟩]
          else if ¬ hasPfx (dropGo data loc2.pos) equalsS then
            splitLoop data fuel loc2 (fields ++ [⟨.text, fieldLoc, fdata⟩])
          else
            let fdata := fdata ++ equalsS
            let loc3 : Location := ⟨loc2.line, loc2.col + 1, loc2.pos + 1⟩
            if loc3.pos ≥ (data.length : Int) then fields ++ [⟨.text, fieldLoc, fdata⟩]
            else
              let loc4 := stepUntil loc3 data notSpacesP
              if loc4.pos ≥ (data.length : Int) then fields ++ [⟨.text, fieldLoc, fdata⟩]
              else if atIdx data loc4.pos = '"' ∨ atIdx data loc4.pos = '\'' then
                let quote := atIdx data loc4.pos
                let nl0 : Location := ⟨loc4.line, loc4.col + 1, loc4.pos + 1⟩
                let nl1 := stepUntil nl0 data (fun d => d.length ≤ 0 || atIdx d 0 = quote)
                let nl2 : Location :=
                  if nl1.pos < (data.length : Int) then { nl1 with pos := nl1.pos + 1 }
                  else nl1
                let fdata := fdata ++ sliceGo data loc4.pos nl2.pos
                splitLoop data fuel nl2 (fields ++ [⟨.text, fieldLoc, fdata⟩])
              else
                let nl := stepUntil loc4 data isSpacesOrEqualsP
                let fdata :=
                  if ¬ hasPfx (dropGo data nl.pos) equalsS then
                    fdata ++ sliceGo data loc4.pos nl.pos
                  else fdata
                splitLoop data fuel nl (fields ++ [⟨.text, fieldLoc, fdata⟩])
    else fields

/-- parse source `splitTagFields`: split an opening tag's raw data into
fields (name, then attributes), each carried in a text token with its own
location.  The incoming location's `Pos` is reset to 0 (positions are
relative to the tag data). -/
def splitTagFields (data : Str) (loc : Location) : List Token :=
  splitLoop data data.length ⟨loc.line, loc.col, 0⟩ []

/-- Cutset membership for Go `bytes.Trim(valData, "\"'")`. -/
def isQuoteCut (c : Char) : Bool := c = '"' || c = '\''

/-- Go `bytes.Trim(s, "\"'")`. -/
def trimQuotes (s : Str) : Str :=
  ((s.dropWhile isQuoteCut).reverse.dropWhile isQuoteCut).reverse

/-- parse source `parseAttr`: cut the field at the first `=`; with a value,
trim surrounding quotes and expand entities in it (warnings located past the
key). -/
def parseAttr (field : Token) : Str × Str × List GoError :=
  match field.data.findIdx? (fun c => c = '=') with
  | some i =>
    let keyData := field.data.take i
    let valData := field.data.drop (i + 1)
    let floc : Location :=
      ⟨field.loc.line, field.loc.col + ((keyData.length : Int) + 1),
       (keyData.length : Int) + 1⟩
    match expandEntitys (trimQuotes valData) floc with
    | (v, warns) => (keyData, v, warns)
  | none => (field.data, [], [])

/-- parse source `unpairedTags`: the void/unpaired element names. -/
def unpairedNames : List Str :=
  ["area".toList, "base".toList, "br".toList, "colgroup".toList, "col".toList,
   "embed".toList, "hr".toList, "image".toList, "img".toList, "input".toList,
   "link".toList, "meta".toList, "param".toList, "source".toList,
   "track".toList, "wbr".toList]

/-- Membership in `unpairedTags` (the Go map lookup). -/
def unpairedTags (name : Str) : Bool := unpairedNames.contains name

/-- parse source `parseOpenTag`: field 0 (lower-cased) is the element name;
the remaining fields become attributes, a repeated key being dropped with a
warning (first occurrence wins).  The children list is created empty. -/
def parseOpenTag (tok : Token) : Node × Option GoError × List GoError :=
  match splitTagFields tok.data tok.loc with
  | [] =>
    (.mk .element [] [] [] tok.loc, some (.emptyContent .openingTag tok.loc), [])
  | f0 :: restFields =>
    let content := toLowerGo f0.data
    let init : List (Str × Str) × List GoError := ([], [])
    let step := fun (acc : List (Str × Str) × List GoError) (field : Token) =>
      match parseAttr field with
      | (key, val, fieldWarns) =>
        match acc with
        | (attrs, warns) =>
          if (attrs.find? (fun e => e.1 = key)).isSome then
            (attrs, warns ++ [GoError.attrKey field.loc key] ++ fieldWarns)
          else (attrs ++ [(key, val)], warns ++ fieldWarns)
    match restFields.foldl step init with
    | (attrs, warns) => (.mk .element content attrs [] tok.loc, none, warns)

/-- A node frame on the parser's open-tag stack: a node whose children list
is still growing.  The Go stack holds pointers into the tree being built;
here a pushed element lives as a frame until it is popped (or until the end
of parsing), at which point its finished node is appended to the frame
below, which is where and in the order the Go code's earlier pointer append
had placed it (nothing is ever appended to a non-top frame in between). -/
structure Frame where
  kind : NodeKind
  content : Str
  attrs : List (Str × Str)
  children : List Node
  loc : Location

/-- The node a frame has built so far. -/
def Frame.toNode (f : Frame) : Node :=
  .mk f.kind f.content f.attrs f.children f.loc

/-- Append a node to the children of the top (head) frame — the Go
`parent.Children = append(parent.Children, node)`. -/
def pushChild : List Frame → Node → List Frame
  | [], _ => []
  | f :: fs, n => { f with children := f.children ++ [n] } :: fs

/-- Fold the remaining open frames into the bottom-most one's node: each
still-open element becomes the last child of the frame below it, which is
where the Go code had appended its pointer when the element was opened. -/
def collapseAux : Frame → List Frame → Node
  | f, [] => f.toNode
  | f, g :: fs => collapseAux { g with children := g.children ++ [f.toNode] } fs

/-- The document node built so far, recovered from the frame stack (top
first, bottom — the document root — last). -/
def collapse : List Frame → Node
  | [] => .mk .invalid [] [] [] zeroLoc
  | f :: fs => collapseAux f fs

/-- Attach a freshly built node under the current top frame: a paired
element is pushed as a new frame (its node joins the frame below on pop or
collapse); everything else, including unpaired elements, is appended as a
finished child — the Go append-then-push. -/
def attachNode (frames : List Frame) (node : Node) : List Frame :=
  if node.kind = .element ∧ ¬ unpairedTags node.content then
    ⟨node.kind, node.content, node.attrs, node.children, node.loc⟩ :: frames
  else pushChild frames node

/-- The parse source `parse` token loop: structural recursion on the token
list.  Fatal errors return immediately with the warnings collected so far
(the current token's warnings are dropped, as in the source, where
`warns = append(warns, tokWarns...)` runs only after the error check). -/
def parseLoop : List Token → List Frame → List GoError →
    List Frame × Option GoError × List GoError
  | [], frames, warns => (frames, none, warns)
  | tok :: rest, frames, warns =>
    match frames with
    | [] => ([], some (.emptyTagStack tok.loc), warns)
    | parent :: frest =>
      match tok.kind with
      | .eof => (parent :: frest, none, warns)
      | .comment =>
        match parseComment tok with
        | (node, none) => parseLoop rest (attachNode (parent :: frest) node) warns
        | (_, some e) => (parent :: frest, some e, warns)
      | .declaration =>
        match parseDeclaration tok with
        | (node, none) => parseLoop rest (attachNode (parent :: frest) node) warns
        | (_, some e) => (parent :: frest, some e, warns)
      | .verbatim =>
        parseLoop rest
          (attachNode (parent :: frest) (.mk .text tok.data [] [] tok.loc)) warns
      | .text =>
        match parseText tok with
        | (node, none, tokWarns) =>
          parseLoop rest (attachNode (parent :: frest) node) (warns ++ tokWarns)
        | (_, some e, _) => (parent :: frest, some e, warns)
      | .tagSelfclose =>
        match parseOpenTag tok with
        | (node, none, tokWarns) =>
          parseLoop rest (attachNode (parent :: frest) node) (warns ++ tokWarns)
        | (_, some e, _) => (parent :: frest, some e, warns)
      | .tagOpen =>
        match parseOpenTag tok with
        | (node, none, tokWarns) =>
          parseLoop rest (attachNode (parent :: frest) node) (warns ++ tokWarns)
        | (_, some e, _) => (parent :: frest, some e, warns)
      | .tagClose =>
        match parseCloseTag tok with
        | (_, some e) => (parent :: frest, some e, warns)
        | (node, none) =>
          if node.content = parent.content then
            parseLoop rest (pushChild frest parent.toNode) warns
          else
            parseLoop rest (attachNode (parent :: frest) node)
              (warns ++ [.tagMismatch node.loc parent.content node.content])
      | .invalid => (parent :: frest, some (.tokenErr tok.loc tok.kind), warns)

/-- The initial document root frame (`&Node{Kind: DocumentNode, Children:
make([]*Node, 0, 4)}` at the zero location). -/
def docFrame : Frame := ⟨.document, [], [], [], zeroLoc⟩

/-- parse source `parse`: run the token loop from a stack holding only the
document root; afterwards, more than one remaining frame yields one
unclosed-tag warning naming the innermost open element, and an empty stack
(unreachable, since the root's empty content never matches a close tag)
would yield an empty-tag-stack warning. -/
def parseGo (toks : List Token) : Node × Option GoError × List GoError :=
  match parseLoop toks [docFrame] [] with
  | (frames, some e, warns) => (collapse frames, some e, warns)
  | (frames, none, warns) =>
    let warns :=
      if frames.length > 1 then
        match frames with
        | top :: _ => warns ++ [.unclosedTag top.loc top.content]
        | [] => warns
      else if frames.length < 1 then
        warns ++ [.emptyTagStack (((toks.getLast?).map Token.loc).getD zeroLoc)]
      else warns
    (collapse frames, none, warns)

/-- gohtml.go `Parse`: lex, then parse.  The returned node is the named
return `node`, which is still its zero value — Go `nil`, modelled as
`none` — when `lex` fails. -/
def Parse (data : Str) : Option Node × Option GoError × List GoError :=
  match lex data with
  | (_, some e, warns) => (none, some e, warns)
  | (tokens, none, warns) =>
    match parseGo tokens with
    | (node, err2, parseWarns) => (some node, err2, warns ++ parseWarns)

mutual

/-- Number of nodes in a tree; the fuel bound for the stack-based query
loops (each loop pops every node of the tree at most once). -/
def nodeWeight : Node → Nat
  | .mk _ _ _ ch _ => 1 + listWeight ch

/-- Total number of nodes in a list of trees. -/
def listWeight : List Node → Nat
  | [] => 0
  | n :: ns => nodeWeight n + listWeight ns

end

/-- Fuel-indexed body of the node.go `Find` stack loop: pop a node, return
it on a match, otherwise push its children so the first child is visited
first.  Exhausting the stack yields the `EmptyNode` sentinel; fuel
`nodeWeight node` bounds the number of pops (each node is popped at most
once). -/
def findLoop (tagName : Str) : Nat → List Node → Node
  | 0, _ => EmptyNode
  | _ + 1, [] => EmptyNode
  | fuel + 1, n :: stk =>
    if n.kind = .element ∧ n.content = tagName then n
    else findLoop tagName fuel (n.children ++ stk)

/-- node.go `Find`: first matching descendant in depth-first pre-order, or
the `EmptyNode` sentinel. -/
def Node.find (node : Node) (tagName : Str) : Node :=
  findLoop tagName (nodeWeight node) [node]

/-- Fuel-indexed body of the node.go `FindAll` stack loop: collect every
match in document order; with `prune` a match's subtree is not descended
into (`continue`), without it the children are pushed as well. -/
def findAllLoop (tagName : Str) (prune : Bool) : Nat → List Node → List Node →
    List Node
  | 0, _, ms => ms
  | _ + 1, [], ms => ms
  | fuel + 1, n :: stk, ms =>
    if n.kind = .element ∧ n.content = tagName then
      if prune then findAllLoop tagName prune fuel stk (ms ++ [n])
      else findAllLoop tagName prune fuel (n.children ++ stk) (ms ++ [n])
    else findAllLoop tagName prune fuel (n.children ++ stk) ms

/-- node.go `FindAll`. -/
def Node.findAll (node : Node) (tagName : Str) (prune : Bool) : List Node :=
  findAllLoop tagName prune (nodeWeight node) [node] []

/-- The subtree of a node at a position (a list of child indices); the
specification-side addressing used to state ancestor/descendant facts about
`FindAll`, since the Go results are pointers into the tree. -/
def subtreeAt : Node → List Nat → Option Node
  | n, [] => some n
  | n, i :: p =>
    match n.children.get? i with
    | some c => subtreeAt c p
    | none => none

/-- The stack entries for the children of the node at position `p`, each
annotated with its own position. -/
def childEntries (p : List Nat) (n : Node) : List (List Nat × Node) :=
  n.children.enum.map (fun e => (p ++ [e.1], e.2))

/-- Position-annotated mirror of `findAllLoop`, identical except that every
stack and result entry carries the node's position in the root.  Used only
to state and prove the ancestor-freeness of the pruned results. -/
def findAllLoopP (tagName : Str) (prune : Bool) : Nat →
    List (List Nat × Node) → List (List Nat × Node) → List (List Nat × Node)
  | 0, _, ms => ms
  | _ + 1, [], ms => ms
  | fuel + 1, (p, n) :: stk, ms =>
    if n.kind = .element ∧ n.content = tagName then
      if prune then findAllLoopP tagName prune fuel stk (ms ++ [(p, n)])
      else
        findAllLoopP tagName prune fuel (childEntries p n ++ stk) (ms ++ [(p, n)])
    else findAllLoopP tagName prune fuel (childEntries p n ++ stk) ms

/-- Position-annotated `FindAll` (specification side). -/
def findAllPaths (node : Node) (tagName : Str) (prune : Bool) :
    List (List Nat × Node) :=
  findAllLoopP tagName prune (nodeWeight node) [([], node)] []

/-- Decides whether `p` is a (not necessarily proper) ancestor position of
`q`, i.e. whether the index list `p` starts `q`. -/
def pathLe : List Nat → List Nat → Bool
  | [], _ => true
  | _ :: _, [] => false
  | a :: as, b :: bs => a = b && pathLe as bs

/-- Two positions neither of which is an ancestor (initial segment) of the
other. -/
def PathIncomp (p q : List Nat) : Prop :=
  pathLe p q = false ∧ pathLe q p = false

/-- Occurrence of a node in a tree: the tree itself, or (recursively) an
occurrence in one of its children.  This is the specification-side
"descendant of" relation. -/
inductive Occurs : Node → Node → Prop where
  | refl (n : Node) : Occurs n n
  | child {x c : Node} (k : NodeKind) (co : Str) (a : List (Str × Str))
      {ch : List Node} (l : Location) :
      c ∈ ch → Occurs x c → Occurs x (.mk k co a ch l)

/-- Every element of the tree whose (lower-cased) name is in the
void/unpaired set has an empty children list. -/
def UnpairedChildless (t : Node) : Prop :=
  ∀ x, Occurs x t → x.kind = .element → unpairedTags x.content = true →
    x.children = []

/-- Invariant of one parser frame: every completed child satisfies
`UnpairedChildless`, and if the frame is an element — an element on the
open-tag stack — its name is not in the void/unpaired set. -/
def FrameOK (f : Frame) : Prop :=
  (∀ c ∈ f.children, UnpairedChildless c) ∧
    (f.kind = .element → unpairedTags f.content = false)

/-- Invariant of the parser's frame stack: every frame satisfies `FrameOK`;
in particular no element with an unpaired name is ever on the stack. -/
def FramesOK (frames : List Frame) : Prop :=
  ∀ f ∈ frames, FrameOK f

/-- C1: the claim says `Parse` returns a non-nil tree for every input, even
with a fatal error and in particular when lexing fails on empty input.  The
code does the opposite: when `lex` fails, `Parse` returns its *unassigned*
named return — a nil node (`none`) — together with the fatal error, both on
empty input (`EmptyInputErr`) and on any other lex failure such as the
unterminated tag of `"<"`.  This contradicts `Parse`'s own doc comment
("The returned node is never nil, regardless of the value of err"). -/
theorem c1_parse_nil_tree_on_lex_failure :
    Parse [] = (none, some GoError.emptyInput, [])
    ∧ Parse "<".toList =
        (none, some (GoError.eofErr .openingTag ⟨1, 1, 1⟩), []) := by
  constructor <;> rfl

/-- C2: the decoder meets the claim on `"&amp;"` (expansion `"&"`, 5 bytes)
and on `"&#65;"` (expansion `"A"`, 5 bytes), but not on the hexadecimal
reference `"&#x41;"`: the hex branch is guarded by `data[3] == 'x'` instead
of byte 3 (`data[2]`) being `'x'`, so `"&#x41;"` takes no branch at all and
is echoed literally — expansion `"&#x41;"`, 6 bytes, no error — instead of
being parsed as hexadecimal to `"A"` (the code's own comment
`// hex number entity, e.g. data == "&#x23;"` describes an input that can
never reach that branch). -/
theorem c2_entity_decoder_examples :
    parseEntity "&amp;".toList = ("&".toList, 5, none)
    ∧ parseEntity "&#65;".toList = ("A".toList, 5, none)
    ∧ parseEntity "&#x41;".toList = ("&#x41;".toList, 6, none) := by
  refine ⟨by decide, by decide, by decide⟩

/-- C3: the semicolon-less probe never runs.  The source inverts its own
constants (`shortestNoscEntity = 33`, `longestNoscEntity = 7`, with comments
naming `&gt` and `&aacute`), so the probe loop
`for entityLen = shortestNoscEntity; entityLen <= longestNoscEntity; ...`
iterates over an empty range: on `"&aacute"` — a legacy semicolon-less name
present in the table — the decoder never probes and returns the
unmatched-entity error consuming exactly 1 byte, instead of accepting the
7-byte match with a missing-semicolon warning as the claim describes. -/
theorem c3_nosc_probe_never_runs :
    noscCandidates = []
    ∧ entityLookup "&aacute".toList = some "á".toList
    ∧ parseEntity "&aacute".toList = ("&".toList, 1, some .noMatch) := by
  refine ⟨by decide, by decide, by decide⟩

/-- C4 counterexample: parsing `"<a></b>"`, the mismatched close tag `</b>`
is *not* merely dropped — an `InvalidNode` with content `"b"` is appended as
a child of the stack-top element `"a"`, refuting the claim's "appends no
node of any kind to the tree for that token". -/
theorem c4_counterexample_invalid_node_appended :
    Parse "<a></b>".toList =
      (some (.mk .document [] []
        [.mk .element "a".toList []
          [.mk .invalid "b".toList [] [] ⟨1, 2, 3⟩] ⟨1, 1, 0⟩] zeroLoc),
       none,
       [.tagMismatch ⟨1, 2, 3⟩ "a".toList "b".toList,
        .unclosedTag ⟨1, 1, 0⟩ "a".toList]) := rfl

/-- C5 counterexample: on `"<a><b>x</c></a>"` the subsequent `</a>` does
*not* pop element `"a"`: the stack top is still `"b"`, so `</a>` is itself a
second tag-mismatch warning (a pop would record no warning at all).  The
warning list is two mismatches followed by the unclosed-tag warning. -/
theorem c5_counterexample_close_a_does_not_pop :
    (Parse "<a><b>x</c></a>".toList).2.2 =
      [.tagMismatch ⟨1, 4, 7⟩ "b".toList "c".toList,
       .tagMismatch ⟨1, 5, 11⟩ "b".toList "a".toList,
       .unclosedTag ⟨1, 2, 3⟩ "b".toList] := by decide

/-- C5 as amended: parsing `"<a><b>x</c></a>"`, the `</c>` close is dropped
with a tag-mismatch warning (appending an `InvalidNode` `"c"` under `"b"`,
stack unchanged); the `</a>` close likewise mismatches the stack top `"b"`,
is recorded as a second tag-mismatch warning with an `InvalidNode` `"a"`
appended under `"b"`, and pops nothing; both `"a"` and `"b"` remain open at
end of input, and `"b"` — the innermost — is the element named in the single
unclosed-tag warning. -/
theorem c5_amended_full_trace :
    Parse "<a><b>x</c></a>".toList =
      (some (.mk .document [] []
        [.mk .element "a".toList []
          [.mk .element "b".toList []
            [.mk .text "x".toList [] [] ⟨1, 3, 6⟩,
             .mk .invalid "c".toList [] [] ⟨1, 4, 7⟩,
             .mk .invalid "a".toList [] [] ⟨1, 5, 11⟩] ⟨1, 2, 3⟩] ⟨1, 1, 0⟩]
        zeroLoc),
       none,
       [.tagMismatch ⟨1, 4, 7⟩ "b".toList "c".toList,
        .tagMismatch ⟨1, 5, 11⟩ "b".toList "a".toList,
        .unclosedTag ⟨1, 2, 3⟩ "b".toList]) := rfl

/-- C6 counterexample: a comment token whose raw content is the single
space `" "` — empty after trimming — is *not* a fatal `EmptyContent` error,
and its node keeps the raw, untrimmed content `" "`: `parseComment` neither
trims nor checks emptiness, refuting the claim for comment tokens. -/
theorem c6_counterexample_comment_untrimmed :
    parseGo [⟨.comment, ⟨1, 1, 0⟩, " ".toList⟩, ⟨.eof, ⟨1, 2, 4⟩, []⟩] =
      (.mk .document [] [] [.mk .comment " ".toList [] [] ⟨1, 1, 0⟩] zeroLoc,
       none, []) := rfl

/-- C7 counterexample: lexing `"<script> "`, the verbatim scan of the
trailing whitespace-only tail `" "` stops cleanly (no fatal error) but its
trailing-whitespace warning is *discarded*: the `lex` loop appends the
warning only in the `lexText` branch, never in the `lexVerbatim` branch, so
the returned warning list is empty, refuting the claim for verbatim scans. -/
theorem c7_counterexample_verbatim_warning_dropped :
    lex "<script> ".toList =
      ([⟨.tagOpen, ⟨1, 1, 0⟩, "script".toList⟩, ⟨.eof, ⟨1, 8, 9⟩, []⟩],
       none, []) := by decide

theorem occurs_elim {x n : Node} (h : Occurs x n) :
    x = n ∨ ∃ c ∈ n.children, Occurs x c := by
  cases h with
  | refl => exact Or.inl rfl
  | child k co a l hc ho => exact Or.inr ⟨_, hc, ho⟩

theorem occurs_via_child {x s n : Node} (hs : s ∈ n.children) (h : Occurs x s) :
    Occurs x n := by
  cases n with
  | mk k co a ch l => exact Occurs.child k co a l hs h

/-- The `Find` loop returns the sentinel when no node of any stacked subtree
matches. -/
theorem findLoop_no_match (tagName : Str) :
    ∀ (fuel : Nat) (stk : List Node),
      (∀ s ∈ stk, ∀ x, Occurs x s →
        ¬(x.kind = .element ∧ x.content = tagName)) →
      findLoop tagName fuel stk = EmptyNode := by
  intro fuel
  induction fuel with
  | zero => intro stk _; rfl
  | succ fuel ih =>
    intro stk h
    match stk with
    | [] => rfl
    | n :: stk' =>
      have hn := h n (List.mem_cons_self n stk') n (Occurs.refl n)
      rw [findLoop, if_neg hn]
      apply ih
      intro s hs x hx
      rcases List.mem_append.1 hs with hc | hs'
      · exact h n (List.mem_cons_self n stk') x (occurs_via_child hc hx)
      · exact h s (List.mem_cons_of_mem n hs') x hx

/-- C10: on every tree in which no element node has the queried name, `Find`
returns the `EmptyNode` sentinel — a non-nil node of kind `InvalidNode` with
an empty children list — never an absent value. -/
theorem c10_find_missing_returns_sentinel (n : Node) (tagName : Str)
    (h : ∀ x, Occurs x n → ¬(x.kind = .element ∧ x.content = tagName)) :
    Node.find n tagName = EmptyNode
    ∧ EmptyNode.kind = .invalid ∧ EmptyNode.children = [] := by
  refine ⟨?_, rfl, rfl⟩
  apply findLoop_no_match
  intro s hs x hx
  rw [List.mem_singleton] at hs
  subst hs
  exact h x hx

/-- Witness for C10 at a concrete tree (a document with one `"p"` element)
and the query `"missing"`. -/
theorem c10_witness :
    Node.find
      (Node.mk .document [] [] [Node.mk .element "p".toList [] [] zeroLoc]
        zeroLoc) "missing".toList = EmptyNode := by
  refine (c10_find_missing_returns_sentinel _ _ ?_).1
  intro x hx
  rcases occurs_elim hx with h | ⟨c, hc, hx2⟩
  · subst h; decide
  · simp only [Node.children, List.mem_singleton] at hc
    subst hc
    rcases occurs_elim hx2 with h2 | ⟨c2, hc2, _⟩
    · subst h2; decide
    · simp [Node.children] at hc2

theorem nodeWeight_pos (n : Node) : 0 < nodeWeight n := by
  cases n with
  | mk k co a ch l => simp [nodeWeight]

theorem listWeight_append (a b : List Node) :
    listWeight (a ++ b) = listWeight a + listWeight b := by
  induction a with
  | nil => simp [listWeight]
  | cons x xs ih => simp [listWeight, ih]; omega

theorem listWeight_children_lt (n : Node) :
    listWeight n.children < nodeWeight n := by
  cases n with
  | mk k co a ch l => simp [nodeWeight, Node.children]

/-- Soundness of the `FindAll` loop (either flag): every collected node was
already collected or is a matching node of some stacked subtree. -/
theorem findAllLoop_sound (tagName : Str) (prune : Bool) :
    ∀ (fuel : Nat) (stk ms : List Node) (x : Node),
      x ∈ findAllLoop tagName prune fuel stk ms →
      x ∈ ms ∨ ∃ s ∈ stk, Occurs x s ∧ x.kind = .element ∧
        x.content = tagName := by
  intro fuel
  induction fuel with
  | zero => intro stk ms x hx; exact Or.inl hx
  | succ fuel ih =>
    intro stk ms x hx
    match stk with
    | [] => exact Or.inl hx
    | n :: stk' =>
      rw [findAllLoop] at hx
      by_cases hn : n.kind = .element ∧ n.content = tagName
      · rw [if_pos hn] at hx
        cases prune with
        | true =>
          rcases ih stk' (ms ++ [n]) x hx with hm | ⟨s, hs, ho, hk⟩
          · rcases List.mem_append.1 hm with hm | hm
            · exact Or.inl hm
            · rw [List.mem_singleton] at hm
              subst hm
              exact Or.inr ⟨x, List.mem_cons_self x stk', Occurs.refl x, hn⟩
          · exact Or.inr ⟨s, List.mem_cons_of_mem n hs, ho, hk⟩
        | false =>
          rcases ih (n.children ++ stk') (ms ++ [n]) x hx with hm | ⟨s, hs, ho, hk⟩
          · rcases List.mem_append.1 hm with hm | hm
            · exact Or.inl hm
            · rw [List.mem_singleton] at hm
              subst hm
              exact Or.inr ⟨x, List.mem_cons_self x stk', Occurs.refl x, hn⟩
          · rcases List.mem_append.1 hs with hc | hs'
            · exact Or.inr ⟨n, List.mem_cons_self n stk',
                occurs_via_child hc ho, hk⟩
            · exact Or.inr ⟨s, List.mem_cons_of_mem n hs', ho, hk⟩
      · rw [if_neg hn] at hx
        rcases ih (n.children ++ stk') ms x hx with hm | ⟨s, hs, ho, hk⟩
        · exact Or.inl hm
        · rcases List.mem_append.1 hs with hc | hs'
          · exact Or.inr ⟨n, List.mem_cons_self n stk',
              occurs_via_child hc ho, hk⟩
          · exact Or.inr ⟨s, List.mem_cons_of_mem n hs', ho, hk⟩

/-- Completeness of the unpruned `FindAll` loop: with enough fuel, every
matching node of every stacked subtree (and everything already collected) is
in the result. -/
theorem findAllLoop_complete (tagName : Str) :
    ∀ (fuel : Nat) (stk ms : List Node) (x : Node),
      listWeight stk ≤ fuel →
      (x ∈ ms ∨ ∃ s ∈ stk, Occurs x s ∧ x.kind = .element ∧
        x.content = tagName) →
      x ∈ findAllLoop tagName false fuel stk ms := by
  intro fuel
  induction fuel with
  | zero =>
    intro stk ms x hw hx
    match stk with
    | [] =>
      rcases hx with hm | ⟨s, hs, _⟩
      · exact hm
      · exact absurd hs (List.not_mem_nil s)
    | n :: stk' =>
      exfalso
      have := nodeWeight_pos n
      simp [listWeight] at hw
      omega
  | succ fuel ih =>
    intro stk ms x hw hx
    match stk with
    | [] =>
      rcases hx with hm | ⟨s, hs, _⟩
      · exact hm
      · exact absurd hs (List.not_mem_nil s)
    | n :: stk' =>
      have hwc : listWeight (n.children ++ stk') ≤ fuel := by
        have h1 := listWeight_children_lt n
        have h2 := listWeight_append n.children stk'
        simp [listWeight] at hw
        omega
      rw [findAllLoop]
      by_cases hn : n.kind = .element ∧ n.content = tagName
      · rw [if_pos hn]
        apply ih (n.children ++ stk') (ms ++ [n]) x hwc
        rcases hx with hm | ⟨s, hs, ho, hk⟩
        · exact Or.inl (List.mem_append.2 (Or.inl hm))
        · rcases List.mem_cons.1 hs with rfl | hs'
          · rcases occurs_elim ho with rfl | ⟨c, hc, ho2⟩
            · exact Or.inl (List.mem_append.2 (Or.inr (List.mem_singleton.2 rfl)))
            · exact Or.inr ⟨c, List.mem_append.2 (Or.inl hc), ho2, hk⟩
          · exact Or.inr ⟨s, List.mem_append.2 (Or.inr hs'), ho, hk⟩
      · rw [if_neg hn]
        apply ih (n.children ++ stk') ms x hwc
        rcases hx with hm | ⟨s, hs, ho, hk⟩
        · exact Or.inl hm
        · rcases List.mem_cons.1 hs with rfl | hs'
          · rcases occurs_elim ho with rfl | ⟨c, hc, ho2⟩
            · exact absurd hk hn
            · exact Or.inr ⟨c, List.mem_append.2 (Or.inl hc), ho2, hk⟩
          · exact Or.inr ⟨s, List.mem_append.2 (Or.inr hs'), ho, hk⟩

theorem enumFrom_map_snd {α : Type} (m : Nat) (l : List α) :
    (List.enumFrom m l).map Prod.snd = l := by
  induction l generalizing m with
  | nil => rfl
  | cons x xs ih => simp [List.enumFrom, ih]

theorem enumFrom_fst_ge {α : Type} {m : Nat} {l : List α} :
    ∀ e ∈ List.enumFrom m l, m ≤ e.1 := by
  induction l generalizing m with
  | nil => intro e he; cases he
  | cons x xs ih =>
    intro e he
    rcases List.mem_cons.1 he with rfl | he'
    · exact Nat.le_refl m
    · exact Nat.le_of_succ_le (ih e he')

theorem enumFrom_mem_get? {α : Type} {m : Nat} {l : List α} :
    ∀ e ∈ List.enumFrom m l, l.get? (e.1 - m) = some e.2 := by
  induction l generalizing m with
  | nil => intro e he; cases he
  | cons x xs ih =>
    intro e he
    rcases List.mem_cons.1 he with rfl | he'
    · simp
    · have h1 := enumFrom_fst_ge e he'
      have h2 := ih e he'
      have h3 : e.1 - m = (e.1 - (m + 1)) + 1 := by omega
      rw [h3]
      simpa using h2

theorem enumFrom_pairwise_fst_ne {α : Type} (m : Nat) (l : List α) :
    List.Pairwise (fun e1 e2 : Nat × α => e1.1 ≠ e2.1) (List.enumFrom m l) := by
  induction l generalizing m with
  | nil => exact List.Pairwise.nil
  | cons x xs ih =>
    refine List.Pairwise.cons ?_ (ih (m + 1))
    intro e he
    have := enumFrom_fst_ge e he
    simp only []
    omega

theorem childEntries_map_snd (p : List Nat) (n : Node) :
    (childEntries p n).map Prod.snd = n.children := by
  simp only [childEntries, List.map_map, List.enum]
  have h : (Prod.snd ∘ fun e : Nat × Node => (p ++ [e.1], e.2)) = Prod.snd := rfl
  rw [h, enumFrom_map_snd]

/-- The position-annotated loop projects (by `Prod.snd`) onto the source's
`FindAll` loop, step for step. -/
theorem findAllLoopP_map_snd (tagName : Str) (prune : Bool) :
    ∀ (fuel : Nat) (stkP msP : List (List Nat × Node)),
      (findAllLoopP tagName prune fuel stkP msP).map Prod.snd
        = findAllLoop tagName prune fuel (stkP.map Prod.snd)
            (msP.map Prod.snd) := by
  intro fuel
  induction fuel with
  | zero => intro stkP msP; rfl
  | succ fuel ih =>
    intro stkP msP
    match stkP with
    | [] => rfl
    | (p, n) :: stk' =>
      rw [findAllLoopP, List.map_cons, findAllLoop]
      by_cases hn : n.kind = .element ∧ n.content = tagName
      · rw [if_pos hn, if_pos hn]
        cases prune with
        | true => simp [ih]
        | false => simp [ih, childEntries_map_snd]
      · rw [if_neg hn, if_neg hn, ih]
        simp [childEntries_map_snd]

/-- Extending a position by one child index steps `subtreeAt` into that
child. -/
theorem subtreeAt_snoc (i : Nat) :
    ∀ (q : List Nat) (r n : Node), subtreeAt r q = some n →
      subtreeAt r (q ++ [i]) = n.children.get? i := by
  intro q
  induction q with
  | nil =>
    intro r n hr
    have hrn : r = n := by simpa [subtreeAt] using hr
    subst hrn
    cases r with
    | mk k co a ch l =>
      show subtreeAt (Node.mk k co a ch l) (i :: []) = _
      simp only [subtreeAt, Node.children]
      cases hch : ch.get? i <;> rfl
  | cons j q' ihq =>
    intro r n hr
    cases r with
    | mk k co a ch l =>
      simp only [subtreeAt, Node.children] at hr
      show subtreeAt (Node.mk k co a ch l) (j :: (q' ++ [i])) = _
      cases hch : ch.get? j with
      | none => rw [hch] at hr; cases hr
      | some c =>
        rw [hch] at hr
        simp only [subtreeAt, Node.children, hch]
        exact ihq c n hr

/-- Every entry the position-annotated loop returns addresses its node:
`subtreeAt root` at the entry's position is exactly the entry's node. -/
theorem findAllLoopP_valid (root : Node) (tagName : Str) (prune : Bool) :
    ∀ (fuel : Nat) (stkP msP : List (List Nat × Node)),
      (∀ e ∈ stkP, subtreeAt root e.1 = some e.2) →
      (∀ e ∈ msP, subtreeAt root e.1 = some e.2) →
      ∀ e ∈ findAllLoopP tagName prune fuel stkP msP,
        subtreeAt root e.1 = some e.2 := by
  intro fuel
  induction fuel with
  | zero => intro stkP msP _ hm e he; exact hm e he
  | succ fuel ih =>
    intro stkP msP hs hm e he
    match stkP with
    | [] => exact hm e he
    | (p, n) :: stk' =>
      have hpn : subtreeAt root p = some n :=
        hs (p, n) (List.mem_cons_self _ stk')
      have hchild : ∀ e ∈ childEntries p n, subtreeAt root e.1 = some e.2 := by
        intro e' he'
        simp only [childEntries, List.enum, List.mem_map] at he'
        obtain ⟨en, hen, rfl⟩ := he'
        have hget : n.children.get? en.1 = some en.2 := by
          have h0 := enumFrom_mem_get? en hen
          simpa using h0
        show subtreeAt root (p ++ [en.1]) = some en.2
        rw [subtreeAt_snoc en.1 p root n hpn, hget]
      rw [findAllLoopP] at he
      by_cases hn : n.kind = .element ∧ n.content = tagName
      · rw [if_pos hn] at he
        cases prune with
        | true =>
          refine ih stk' (msP ++ [(p, n)])
            (fun e' he' => hs e' (List.mem_cons_of_mem _ he')) ?_ e he
          intro e' he'
          rcases List.mem_append.1 he' with h | h
          · exact hm e' h
          · rw [List.mem_singleton] at h; subst h; exact hpn
        | false =>
          refine ih (childEntries p n ++ stk') (msP ++ [(p, n)]) ?_ ?_ e he
          · intro e' he'
            rcases List.mem_append.1 he' with h | h
            · exact hchild e' h
            · exact hs e' (List.mem_cons_of_mem _ h)
          · intro e' he'
            rcases List.mem_append.1 he' with h | h
            · exact hm e' h
            · rw [List.mem_singleton] at h; subst h; exact hpn
      · rw [if_neg hn] at he
        refine ih (childEntries p n ++ stk') msP ?_ hm e he
        intro e' he'
        rcases List.mem_append.1 he' with h | h
        · exact hchild e' h
        · exact hs e' (List.mem_cons_of_mem _ h)

/-- `pathLe p q` decides exactly "q extends p". -/
theorem pathLe_iff (p : List Nat) : ∀ q, pathLe p q = true ↔ ∃ r, p ++ r = q := by
  induction p with
  | nil => intro q; simp [pathLe]
  | cons a as ih =>
    intro q
    cases q with
    | nil => simp [pathLe]
    | cons b bs =>
      simp only [pathLe, Bool.and_eq_true, decide_eq_true_eq, ih,
        List.cons_append, List.cons.injEq]
      constructor
      · rintro ⟨hab, r, hr⟩; exact ⟨r, hab, hr⟩
      · rintro ⟨r, hab, hr⟩; exact ⟨hab, r, hr⟩

theorem pathIncomp_symm {p q : List Nat} (h : PathIncomp p q) : PathIncomp q p :=
  ⟨h.2, h.1⟩

theorem pathLe_false_of_not_ext {p q : List Nat} (h : ∀ r, p ++ r ≠ q) :
    pathLe p q = false := by
  rcases hb : pathLe p q with _ | _
  · rfl
  · exfalso
    obtain ⟨r, hr⟩ := (pathLe_iff p q).1 hb
    exact h r hr

/-- Extending the first component of an incomparable pair by one index keeps
it incomparable. -/
theorem pathIncomp_extend {p q : List Nat} (i : Nat) (h : PathIncomp p q) :
    PathIncomp (p ++ [i]) q := by
  constructor
  · apply pathLe_false_of_not_ext
    intro r hr
    rw [List.append_assoc] at hr
    have : pathLe p q = true := (pathLe_iff p q).2 ⟨[i] ++ r, hr⟩
    rw [h.1] at this
    cases this
  · apply pathLe_false_of_not_ext
    intro r hr
    rcases List.eq_nil_or_concat r with rfl | ⟨r', b, rfl⟩
    · rw [List.append_nil] at hr
      have : pathLe p q = true := (pathLe_iff p q).2 ⟨[i], hr.symm⟩
      rw [h.1] at this
      cases this
    · rw [List.concat_eq_append, ← List.append_assoc] at hr
      obtain ⟨h1, _⟩ := List.append_inj' hr rfl
      have : pathLe q p = true := (pathLe_iff q p).2 ⟨r', h1⟩
      rw [h.2] at this
      cases this

/-- Distinct child indices of a common parent position are incomparable. -/
theorem pathIncomp_siblings {i j : Nat} (p : List Nat) (hij : i ≠ j) :
    PathIncomp (p ++ [i]) (p ++ [j]) := by
  constructor
  · apply pathLe_false_of_not_ext
    intro r hr
    rw [List.append_assoc] at hr
    have h1 := List.append_cancel_left hr
    simp only [List.singleton_append, List.cons.injEq] at h1
    exact hij h1.1
  · apply pathLe_false_of_not_ext
    intro r hr
    rw [List.append_assoc] at hr
    have h1 := List.append_cancel_left hr
    simp only [List.singleton_append, List.cons.injEq] at h1
    exact hij h1.1.symm

/-- The position components of `childEntries` are pairwise incomparable
(distinct sibling indices). -/
theorem childEntries_fst_pairwise (p : List Nat) (n : Node) :
    List.Pairwise PathIncomp ((childEntries p n).map Prod.fst) := by
  rw [List.pairwise_map]
  unfold childEntries
  rw [List.pairwise_map, List.enum]
  refine (enumFrom_pairwise_fst_ne 0 n.children).imp ?_
  intro a b hab
  exact pathIncomp_siblings p hab

/-- Replacing a stacked position by its child positions preserves pairwise
incomparability of collected-plus-stacked positions. -/
theorem pairwise_replace_children (A S : List (List Nat)) (p : List Nat)
    (C : List (List Nat)) (hC : ∀ c ∈ C, ∃ i, c = p ++ [i])
    (hCp : List.Pairwise PathIncomp C)
    (h : List.Pairwise PathIncomp (A ++ p :: S)) :
    List.Pairwise PathIncomp (A ++ (C ++ S)) := by
  rw [List.pairwise_append] at h
  obtain ⟨hA, hpS, hAx⟩ := h
  rw [List.pairwise_cons] at hpS
  obtain ⟨hpS1, hS⟩ := hpS
  rw [List.pairwise_append]
  refine ⟨hA, ?_, ?_⟩
  · rw [List.pairwise_append]
    refine ⟨hCp, hS, ?_⟩
    intro c hc s hs
    obtain ⟨i, rfl⟩ := hC c hc
    exact pathIncomp_extend i (hpS1 s hs)
  · intro a ha b hb
    rcases List.mem_append.1 hb with hbC | hbS
    · obtain ⟨i, rfl⟩ := hC b hbC
      exact pathIncomp_symm (pathIncomp_extend i
        (pathIncomp_symm (hAx a ha p (List.mem_cons_self p S))))
    · exact hAx a ha b (List.mem_cons_of_mem p hbS)

/-- The pruned position-annotated loop returns pairwise incomparable
positions, provided the collected-plus-stacked positions are pairwise
incomparable. -/
theorem findAllLoopP_pairwise (tagName : Str) :
    ∀ (fuel : Nat) (stkP msP : List (List Nat × Node)),
      List.Pairwise PathIncomp (msP.map Prod.fst ++ stkP.map Prod.fst) →
      List.Pairwise PathIncomp
        ((findAllLoopP tagName true fuel stkP msP).map Prod.fst) := by
  intro fuel
  induction fuel with
  | zero =>
    intro stkP msP h
    exact List.Pairwise.sublist (List.sublist_append_left _ _) h
  | succ fuel ih =>
    intro stkP msP h
    match stkP with
    | [] =>
      rw [findAllLoopP]
      exact List.Pairwise.sublist (List.sublist_append_left _ _) h
    | (p, n) :: stk' =>
      rw [findAllLoopP]
      by_cases hn : n.kind = .element ∧ n.content = tagName
      · rw [if_pos hn, if_pos rfl]
        apply ih
        simpa [List.append_assoc] using h
      · rw [if_neg hn]
        apply ih
        simp only [List.map_append]
        apply pairwise_replace_children (msP.map Prod.fst)
          (stk'.map Prod.fst) p
        · intro c hc
          rw [List.mem_map] at hc
          obtain ⟨e, he, rfl⟩ := hc
          simp only [childEntries, List.mem_map] at he
          obtain ⟨en, _, rfl⟩ := he
          exact ⟨en.1, rfl⟩
        · exact childEntries_fst_pairwise p n
        · simpa using h

/-- C9: for every tree and tag name, the pruned `FindAll` results are
pairwise free of ancestor/descendant relations — witnessed by positions:
the pruned result is exactly the node list addressed by a set of pairwise
prefix-incomparable tree positions — and every pruned result also occurs in
the unpruned `FindAll` result. -/
theorem c9_findAll_prune_properties (n : Node) (tagName : Str) :
    (∀ x, x ∈ Node.findAll n tagName true → x ∈ Node.findAll n tagName false)
    ∧ (findAllPaths n tagName true).map Prod.snd = Node.findAll n tagName true
    ∧ (∀ e ∈ findAllPaths n tagName true, subtreeAt n e.1 = some e.2)
    ∧ List.Pairwise PathIncomp
        ((findAllPaths n tagName true).map Prod.fst) := by
  refine ⟨?_, ?_, ?_, ?_⟩
  · intro x hx
    rcases findAllLoop_sound tagName true (nodeWeight n) [n] [] x hx with
      hm | ⟨s, hs, ho, hk⟩
    · cases hm
    · rw [List.mem_singleton] at hs
      subst hs
      apply findAllLoop_complete tagName (nodeWeight s) [s] [] x
      · simp [listWeight]
      · exact Or.inr ⟨s, List.mem_singleton.2 rfl, ho, hk⟩
  · show (findAllLoopP tagName true (nodeWeight n) [([], n)] []).map Prod.snd
      = findAllLoop tagName true (nodeWeight n) [n] []
    rw [findAllLoopP_map_snd]
    rfl
  · intro e he
    refine findAllLoopP_valid n tagName true (nodeWeight n) [([], n)] []
      ?_ ?_ e he
    · intro e' he'
      rw [List.mem_singleton] at he'
      subst he'
      rfl
    · intro e' he'
      cases he'
  · apply findAllLoopP_pairwise
    simp

/-- Witness for C9 at a concrete tree: a document holding an `"a"` element
that itself holds a nested `"a"` element; the outer one is a pruned result,
hence also an unpruned result. -/
theorem c9_witness :
    Node.mk .element "a".toList []
        [Node.mk .element "a".toList [] [] zeroLoc] zeroLoc ∈
      Node.findAll
        (Node.mk .document [] []
          [Node.mk .element "a".toList []
            [Node.mk .element "a".toList [] [] zeroLoc] zeroLoc] zeroLoc)
        "a".toList false := by
  apply (c9_findAll_prune_properties _ _).1
  show _ ∈ Node.findAll _ _ true
  have h : Node.findAll
      (Node.mk .document [] []
        [Node.mk .element "a".toList []
          [Node.mk .element "a".toList [] [] zeroLoc] zeroLoc] zeroLoc)
      "a".toList true
      = [Node.mk .element "a".toList []
          [Node.mk .element "a".toList [] [] zeroLoc] zeroLoc] := rfl
  rw [h]
  exact List.mem_cons_self _ _

theorem unpairedChildless_leaf (k : NodeKind) (co : Str) (a : List (Str × Str))
    (l : Location) : UnpairedChildless (.mk k co a [] l) := by
  intro x hx _ _
  rcases occurs_elim hx with rfl | ⟨c, hc, _⟩
  · rfl
  · simp [Node.children] at hc

theorem unpairedChildless_of_children_nil {node : Node}
    (h : node.children = []) : UnpairedChildless node := by
  cases node with
  | mk k co a ch l =>
    simp only [Node.children] at h
    subst h
    exact unpairedChildless_leaf k co a l

theorem frameOK_toNode {f : Frame} (h : FrameOK f) :
    UnpairedChildless f.toNode := by
  intro x hx he hu
  rcases occurs_elim hx with rfl | ⟨c, hc, ho⟩
  · simp only [Frame.toNode, Node.kind] at he
    simp only [Frame.toNode, Node.content] at hu
    rw [h.2 he] at hu
    cases hu
  · simp only [Frame.toNode, Node.children] at hc
    exact h.1 c hc x ho he hu

theorem framesOK_pushChild {frames : List Frame} {node : Node}
    (hn : UnpairedChildless node) (h : FramesOK frames) :
    FramesOK (pushChild frames node) := by
  match frames with
  | [] => intro f hf; cases hf
  | f :: fs =>
    intro g hg
    rcases List.mem_cons.1 hg with rfl | hg'
    · refine ⟨?_, (h f (List.mem_cons_self f fs)).2⟩
      intro c hc
      rcases List.mem_append.1 hc with hc' | hc'
      · exact (h f (List.mem_cons_self f fs)).1 c hc'
      · rw [List.mem_singleton] at hc'
        subst hc'
        exact hn
    · exact h g (List.mem_cons_of_mem f hg')

theorem framesOK_attachNode {frames : List Frame} {node : Node}
    (hch : node.children = []) (h : FramesOK frames) :
    FramesOK (attachNode frames node) := by
  unfold attachNode
  split
  · rename_i hcond
    intro f hf
    rcases List.mem_cons.1 hf with rfl | hf'
    · constructor
      · intro c hc
        rw [hch] at hc
        cases hc
      · intro _
        have := hcond.2
        simpa using this
    · exact h f hf'
  · exact framesOK_pushChild (unpairedChildless_of_children_nil hch) h

theorem parseComment_children (tok : Token) :
    ((parseComment tok).1).children = [] := rfl

theorem parseDeclaration_children (tok : Token) :
    ((parseDeclaration tok).1).children = [] := by
  unfold parseDeclaration
  dsimp only
  split <;> rfl

theorem parseText_children (tok : Token) :
    ((parseText tok).1).children = [] := by
  unfold parseText
  split
  · rfl
  · split
    rfl

theorem parseCloseTag_children (tok : Token) :
    ((parseCloseTag tok).1).children = [] := by
  unfold parseCloseTag
  dsimp only
  split <;> rfl

theorem parseOpenTag_children (tok : Token) :
    ((parseOpenTag tok).1).children = [] := by
  unfold parseOpenTag
  split
  · rfl
  · rfl

/-- The parse loop preserves the frame-stack invariant: unpaired elements
are never pushed as frames, and every completed child keeps its unpaired
descendants childless. -/
theorem parseLoop_framesOK :
    ∀ (toks : List Token) (frames : List Frame) (warns : List GoError),
      FramesOK frames → FramesOK (parseLoop toks frames warns).1 := by
  intro toks
  induction toks with
  | nil => intro frames warns h; exact h
  | cons tok rest ih =>
    intro frames warns h
    obtain ⟨tk, tl, td⟩ := tok
    match frames with
    | [] =>
      rw [parseLoop]
      intro f hf
      cases hf
    | parent :: frest =>
      have hparent : FrameOK parent := h parent (List.mem_cons_self parent frest)
      have htail : FramesOK frest := fun f hf => h f (List.mem_cons_of_mem parent hf)
      cases tk with
      | eof => exact h
      | invalid => exact h
      | comment =>
        rw [parseLoop]
        exact ih _ _ (framesOK_attachNode (parseComment_children _) h)
      | declaration =>
        rw [parseLoop]
        rcases hpd : parseDeclaration ⟨.declaration, tl, td⟩ with ⟨nd, e⟩
        have hch := parseDeclaration_children ⟨.declaration, tl, td⟩
        rw [hpd] at hch
        cases e with
        | none => exact ih _ _ (framesOK_attachNode hch h)
        | some e => exact h
      | verbatim =>
        rw [parseLoop]
        exact ih _ _ (framesOK_attachNode rfl h)
      | text =>
        rw [parseLoop]
        rcases hpt : parseText ⟨.text, tl, td⟩ with ⟨nd, e, tokWarns⟩
        have hch := parseText_children ⟨.text, tl, td⟩
        rw [hpt] at hch
        cases e with
        | none => exact ih _ _ (framesOK_attachNode hch h)
        | some e => exact h
      | tagSelfclose =>
        rw [parseLoop]
        rcases hpo : parseOpenTag ⟨.tagSelfclose, tl, td⟩ with ⟨nd, e, tokWarns⟩
        have hch := parseOpenTag_children ⟨.tagSelfclose, tl, td⟩
        rw [hpo] at hch
        cases e with
        | none => exact ih _ _ (framesOK_attachNode hch h)
        | some e => exact h
      | tagOpen =>
        rw [parseLoop]
        rcases hpo : parseOpenTag ⟨.tagOpen, tl, td⟩ with ⟨nd, e, tokWarns⟩
        have hch := parseOpenTag_children ⟨.tagOpen, tl, td⟩
        rw [hpo] at hch
        cases e with
        | none => exact ih _ _ (framesOK_attachNode hch h)
        | some e => exact h
      | tagClose =>
        rw [parseLoop]
        rcases hpc : parseCloseTag ⟨.tagClose, tl, td⟩ with ⟨nd, e⟩
        have hch := parseCloseTag_children ⟨.tagClose, tl, td⟩
        rw [hpc] at hch
        cases e with
        | some e => exact h
        | none =>
          dsimp only
          by_cases heq : nd.content = parent.content
          · rw [if_pos heq]
            exact ih _ _ (framesOK_pushChild (frameOK_toNode hparent) htail)
          · rw [if_neg heq]
            exact ih _ _ (framesOK_attachNode hch h)

theorem collapseAux_ok :
    ∀ (fs : List Frame) (f : Frame), FrameOK f → FramesOK fs →
      UnpairedChildless (collapseAux f fs) := by
  intro fs
  induction fs with
  | nil => intro f hf _; exact frameOK_toNode hf
  | cons g fs' ih =>
    intro f hf hg
    rw [collapseAux]
    refine ih _ ⟨?_, (hg g (List.mem_cons_self g fs')).2⟩
      (fun x hx => hg x (List.mem_cons_of_mem g hx))
    intro c hc
    rcases List.mem_append.1 hc with hc' | hc'
    · exact (hg g (List.mem_cons_self g fs')).1 c hc'
    · rw [List.mem_singleton] at hc'
      subst hc'
      exact frameOK_toNode hf

theorem collapse_ok {frames : List Frame} (h : FramesOK frames) :
    UnpairedChildless (collapse frames) := by
  match frames with
  | [] => exact unpairedChildless_leaf _ _ _ _
  | f :: fs =>
    exact collapseAux_ok fs f (h f (List.mem_cons_self f fs))
      (fun x hx => h x (List.mem_cons_of_mem f hx))

/-- The tree `parse` returns — on every token list, fatal or not — keeps
every unpaired-named element childless. -/
theorem parseGo_unpairedChildless (toks : List Token) :
    UnpairedChildless (parseGo toks).1 := by
  have hinit : FramesOK [docFrame] := by
    intro f hf
    rw [List.mem_singleton] at hf
    subst hf
    unfold FrameOK
    exact ⟨fun c hc => (nomatch hc), fun hk => nomatch hk⟩
  have hloop := parseLoop_framesOK toks [docFrame] [] hinit
  unfold parseGo
  rcases hpl : parseLoop toks [docFrame] [] with ⟨frames, e, warns⟩
  rw [hpl] at hloop
  cases e with
  | some e => exact collapse_ok hloop
  | none => exact collapse_ok hloop

/-- C8: void/unpaired elements never acquire children — on every token list,
every element of the returned tree whose (lower-cased) name is in the
unpaired set has an empty children list — and are never pushed onto the
open-tag stack — the parse loop preserves the frame invariant that no
element frame has an unpaired name.  In particular `"<br><p>x</p>"` parses
to a document with two children, `"br"` childless and `"p"` holding the
text `"x"`: siblings, not ancestor and descendant. -/
theorem c8_unpaired_void_elements :
    (∀ toks : List Token, UnpairedChildless (parseGo toks).1)
    ∧ (∀ (toks : List Token) (frames : List Frame) (warns : List GoError),
        FramesOK frames → FramesOK (parseLoop toks frames warns).1)
    ∧ Parse "<br><p>x</p>".toList =
        (some (.mk .document [] []
          [.mk .element "br".toList [] [] ⟨1, 1, 0⟩,
           .mk .element "p".toList []
             [.mk .text "x".toList [] [] ⟨1, 4, 7⟩] ⟨1, 3, 4⟩] zeroLoc),
         none, []) :=
  ⟨parseGo_unpairedChildless, parseLoop_framesOK, rfl⟩

/-- Witness for C8: a `"br"` element occurring in a parsed tree has empty
children. -/
theorem c8_witness :
    (Node.mk .element "br".toList [] [] ⟨1, 1, 0⟩).children = [] := by
  have occ : Occurs (Node.mk .element "br".toList [] [] ⟨1, 1, 0⟩)
      (parseGo [⟨.tagOpen, ⟨1, 1, 0⟩, "br".toList⟩]).1 := by
    have h : (parseGo [⟨.tagOpen, ⟨1, 1, 0⟩, "br".toList⟩]).1
        = Node.mk .document [] []
            [Node.mk .element "br".toList [] [] ⟨1, 1, 0⟩] zeroLoc := rfl
    rw [h]
    exact Occurs.child .document [] [] zeroLoc (List.mem_cons_self _ _)
      (Occurs.refl _)
  exact c8_unpaired_void_elements.1 [⟨.tagOpen, ⟨1, 1, 0⟩, "br".toList⟩] _ occ
    rfl (by decide)

/-- C4 as amended: for every close-tag token whose trimmed name is non-empty
and unequal to the content of the stack-top frame, the parser records a
non-fatal tag-mismatch warning, neither pops nor pushes (the frame stack
keeps the same frames, the top one merely gaining a child), and appends an
`InvalidNode` holding the trimmed name as a child of the stack top. -/
theorem c4_amended_close_mismatch (tok : Token) (rest : List Token)
    (parent : Frame) (frest : List Frame) (warns : List GoError)
    (hk : tok.kind = .tagClose)
    (hne : trimSpaceGo tok.data ≠ [])
    (hmm' : trimSpaceGo tok.data ≠ parent.content) :
    parseLoop (tok :: rest) (parent :: frest) warns
      = parseLoop rest
          ({ parent with children := parent.children ++
              [Node.mk .invalid (trimSpaceGo tok.data) [] [] tok.loc] } :: frest)
          (warns ++
            [.tagMismatch tok.loc parent.content (trimSpaceGo tok.data)]) := by
  obtain ⟨tk, tl, td⟩ := tok
  dsimp only at hk hne hmm' ⊢
  subst hk
  have h1 : parseCloseTag ⟨.tagClose, tl, td⟩
      = (Node.mk .invalid (trimSpaceGo td) [] [] tl, none) := by
    unfold parseCloseTag
    dsimp only
    rw [if_neg (fun hl => hne (List.length_eq_zero.1 hl))]
  rw [parseLoop, h1]
  dsimp only [Node.content, Node.kind, Node.loc]
  rw [if_neg hmm']
  have h2 : attachNode (parent :: frest)
      (Node.mk .invalid (trimSpaceGo td) [] [] tl)
      = { parent with children := parent.children ++
          [Node.mk .invalid (trimSpaceGo td) [] [] tl] } :: frest := by
    unfold attachNode
    rw [if_neg (fun hc => by cases hc.1)]
    rfl
  rw [h2]

/-- Witness for C4: one concrete step — close tag `"b"` against stack top
`"a"` — appends the invalid node and records the mismatch warning. -/
theorem c4_witness :
    parseLoop [⟨.tagClose, ⟨1, 2, 3⟩, "b".toList⟩]
        [⟨.element, "a".toList, [], [], ⟨1, 1, 0⟩⟩, docFrame] []
      = parseLoop []
          [⟨.element, "a".toList, [],
            [Node.mk .invalid "b".toList [] [] ⟨1, 2, 3⟩], ⟨1, 1, 0⟩⟩, docFrame]
          [.tagMismatch ⟨1, 2, 3⟩ "a".toList "b".toList] :=
  c4_amended_close_mismatch ⟨.tagClose, ⟨1, 2, 3⟩, "b".toList⟩ []
    ⟨.element, "a".toList, [], [], ⟨1, 1, 0⟩⟩ [docFrame] [] rfl
    (by decide) (by decide)

/-- C6 as amended: a declaration token's node is built from the trimmed raw
content and raw content empty after trimming is a fatal `EmptyContent`
error; a comment token's node keeps the raw content untrimmed, with no
emptiness check and never an error. -/
theorem c6_amended_comment_declaration (tok : Token) :
    parseComment tok = (Node.mk .comment tok.data [] [] tok.loc, none)
    ∧ (trimSpaceGo tok.data = [] →
        parseDeclaration tok =
          (Node.mk .declaration [] [] [] tok.loc,
           some (.emptyContent .declaration tok.loc)))
    ∧ (trimSpaceGo tok.data ≠ [] →
        parseDeclaration tok =
          (Node.mk .declaration (trimSpaceGo tok.data) [] [] tok.loc,
           none)) := by
  refine ⟨rfl, ?_, ?_⟩
  · intro h
    unfold parseDeclaration
    dsimp only
    rw [if_pos (by simp [h])]
  · intro h
    unfold parseDeclaration
    dsimp only
    rw [if_neg (fun hl => h (List.length_eq_zero.1 hl))]

/-- Witness for C6: a whitespace-only declaration token is the fatal
`EmptyContent` error. -/
theorem c6_witness :
    parseDeclaration ⟨.declaration, zeroLoc, "  ".toList⟩
      = (Node.mk .declaration [] [] [] zeroLoc,
         some (.emptyContent .declaration zeroLoc)) :=
  (c6_amended_comment_declaration ⟨.declaration, zeroLoc, "  ".toList⟩).2.1
    (by decide)

/-- When the position has reached the end of the input, the lex loop exits
cleanly, appending the final `eof` token — at any fuel. -/
theorem lexLoop_exit (data : Str) (fuel : Nat) (loc : Location)
    (tokens : List Token) (warns : List GoError)
    (h : ¬ loc.pos < (data.length : Int)) :
    lexLoop data fuel loc tokens warns
      = (tokens ++ [⟨.eof, loc, []⟩], none, warns) := by
  cases fuel with
  | zero => rfl
  | succ f => rw [lexLoop, if_neg h]

/-- C7 as amended: when a text or verbatim scan reaches end of input without
its terminator, an all-whitespace remainder makes lexing stop cleanly (no
fatal error, the final `eof` token appended) — but only the text scan's
trailing-whitespace warning reaches the returned warning list; the verbatim
scan's warning is discarded.  A remainder with any non-whitespace byte is a
fatal `UnexpectedEOF` in both scans. -/
theorem c7_amended_unterminated_tail (data : Str) (fuel : Nat)
    (loc scanLoc : Location) (tokens : List Token) (warns : List GoError)
    (h1 : loc.pos < (data.length : Int))
    (h2 : atIdx data loc.pos ≠ '<')
    (hscan : scanLoc = if inVerbatim tokens then
        stepUntilPfx loc data (closeTagStartS ++ lastTagName tokens ++ tagEndS)
      else stepUntilPfx loc data tagStartS)
    (h3 : scanLoc.pos ≥ (data.length : Int)) :
    ((trimSpaceGo (sliceGo data loc.pos scanLoc.pos)).length = 0 →
      lexLoop data (fuel + 1) loc tokens warns
        = (tokens ++ [⟨.eof, scanLoc, []⟩], none,
           warns ++ (if inVerbatim tokens then [] else [.eofErr .text loc])))
    ∧ ((trimSpaceGo (sliceGo data loc.pos scanLoc.pos)).length ≠ 0 →
      lexLoop data (fuel + 1) loc tokens warns
        = (tokens, some (.eofErr .text loc), warns)) := by
  have hexit : ¬ scanLoc.pos < (data.length : Int) := by omega
  constructor
  · intro hws
    rw [lexLoop, if_pos h1, if_neg h2]
    by_cases hv : inVerbatim tokens = true
    · rw [if_pos hv]
      have hnl : stepUntilPfx loc data
          (closeTagStartS ++ lastTagName tokens ++ tagEndS) = scanLoc := by
        rw [hscan, if_pos hv]
      have hlv : lexVerbatim data loc (lastTagName tokens)
          = (⟨.invalid, loc, []⟩, scanLoc, none, some (.eofErr .text loc)) := by
        unfold lexVerbatim
        dsimp only
        rw [hnl, if_pos h3, if_pos hws]
      rw [hlv]
      show lexLoop data fuel scanLoc tokens warns = _
      rw [lexLoop_exit data fuel scanLoc tokens warns hexit, if_pos hv,
        List.append_nil]
    · rw [if_neg hv]
      have hnl : stepUntilPfx loc data tagStartS = scanLoc := by
        rw [hscan, if_neg hv]
      have hlt : lexText data loc
          = (⟨.invalid, loc, []⟩, scanLoc, none, some (.eofErr .text loc)) := by
        unfold lexText
        dsimp only
        rw [hnl, if_pos h3, if_pos hws]
      rw [hlt]
      show lexLoop data fuel scanLoc tokens
          (warns ++ [GoError.eofErr .text loc]) = _
      rw [lexLoop_exit data fuel scanLoc tokens _ hexit, if_neg hv]
  · intro hws
    rw [lexLoop, if_pos h1, if_neg h2]
    by_cases hv : inVerbatim tokens = true
    · rw [if_pos hv]
      have hnl : stepUntilPfx loc data
          (closeTagStartS ++ lastTagName tokens ++ tagEndS) = scanLoc := by
        rw [hscan, if_pos hv]
      have hlv : lexVerbatim data loc (lastTagName tokens)
          = (⟨.invalid, loc, []⟩, scanLoc, some (.eofErr .text loc), none) := by
        unfold lexVerbatim
        dsimp only
        rw [hnl, if_pos h3, if_neg hws]
      rw [hlv]
    · rw [if_neg hv]
      have hnl : stepUntilPfx loc data tagStartS = scanLoc := by
        rw [hscan, if_neg hv]
      have hlt : lexText data loc
          = (⟨.invalid, loc, []⟩, scanLoc, some (.eofErr .text loc), none) := by
        unfold lexText
        dsimp only
        rw [hnl, if_pos h3, if_neg hws]
      rw [hlt]
      show (tokens, some (GoError.eofErr .text loc), warns ++ []) = _
      rw [List.append_nil]

/-- Witness for C7 at a concrete state: lexing the single-space remainder of
`" "` from the start (a text scan, not in verbatim mode) stops cleanly with
the trailing-whitespace warning recorded. -/
theorem c7_witness :
    lexLoop " ".toList 1 ⟨1, 1, 0⟩ [] []
      = ([⟨.eof, ⟨1, 2, 1⟩, []⟩], none, [.eofErr .text ⟨1, 1, 0⟩]) :=
  (c7_amended_unterminated_tail " ".toList 0 ⟨1, 1, 0⟩ ⟨1, 2, 1⟩ [] []
    (by decide) (by decide) (by decide) (by decide)).1 (by decide)

end GoHtml
